import Mathlib

/-!
Verification development for the active-set QP solver (QPSolver.cpp).

The embedding uses exact rationals for all scalar values.  Vectors are
lists of rationals and matrices are lists of rows.  A JacobianFactor
stores, per variable key, one coefficient block, together with the
right-hand side b and the noise-model sigmas (one scale per scalar row).
The sign of a sigma encodes the row role: positive = free cost row,
zero = equality, negative = inequality (active-set machinery).
-/

namespace QP

abbrev Vec := List ℚ

abbrev Mat := List (List ℚ)

/-- Dot product of two vectors (truncating zip, as in Eigen on equal sizes). -/
def dot (a b : Vec) : ℚ := (List.zipWith (· * ·) a b).sum

/-- Pointwise vector addition. -/
def vadd (a b : Vec) : Vec := List.zipWith (· + ·) a b

/-- Pointwise vector negation. -/
def vneg (a : Vec) : Vec := a.map Neg.neg

/-- Zero vector of a given size. -/
def vzero (n : ℕ) : Vec := List.replicate n 0

/-- Entry of a vector, with an out-of-range default of zero. -/
def vGet (v : Vec) (j : ℕ) : ℚ := v.getD j 0

/-- Matrix times vector: one dot product per matrix row. -/
def matVec (m : Mat) (v : Vec) : Vec := m.map (fun r => dot r v)

/-- Transpose of a well-formed (rectangular) matrix. -/
def matT (m : Mat) : Mat :=
  (List.range (m.headD []).length).map (fun c => m.map (fun r => vGet r c))

/-- A Jacobian factor: variable keys, one coefficient block per key
(rows = number of scalar rows, cols = dimension of the key), the
right-hand side b, and the noise-model sigmas, one per scalar row. -/
structure JacobianFactor where
  keys : List ℕ
  A : List Mat
  b : Vec
  sigmas : Vec
deriving DecidableEq, Inhabited

abbrev GaussianFactorGraph := List JacobianFactor

/-- Factor of a graph at an index (default factor when out of range). -/
def gAt (g : GaussianFactorGraph) (i : ℕ) : JacobianFactor := g.getD i default

/-- A VectorValues assignment: ordered association list key -> vector. -/
abbrev VectorValues := List (ℕ × Vec)

/-- Value of a variable in an assignment (empty when absent). -/
def vvAt (x : VectorValues) (k : ℕ) : Vec := (x.lookup k).getD []

/-- Modelled from the spec: a noise model is constrained when some row
scale is non-positive (equality or inequality row role); the concrete
noise-model class lives outside the analysed sources. -/
def JacobianFactor.isConstrained (f : JacobianFactor) : Bool :=
  f.sigmas.any (fun s => decide (s ≤ 0))

/-- Indices of the constrained factors of a graph, in increasing order
(the member constraintIndices_ collected by the constructor). -/
def constraintIndicesOf (g : GaussianFactorGraph) : List ℕ :=
  (List.range g.length).filter (fun i => (gAt g i).isConstrained)

/-- Row s of the block of a factor for the key at position kA, dotted
with the value of that key in the assignment; summed over all keys.
This is the inner accumulation loop of computeStepSize. -/
def rowDot (jac : JacobianFactor) (s : ℕ) (x : VectorValues) : ℚ :=
  (List.zip jac.keys jac.A).foldl
    (fun acc kA => acc + dot (kA.2.getD s []) (vvAt x kA.1)) 0

/-- One inner step of the computeStepSize scan over the rows of one factor:
state is (minAlpha, closestFactorIx, closestSigmaIx). -/
def stepSizeRow (working : GaussianFactorGraph) (xk p : VectorValues)
    (factorIx : ℕ) (st : ℚ × Int × Int) (s : ℕ) : ℚ × Int × Int :=
  let jac := gAt working factorIx
  if vGet jac.sigmas s < 0 then
    let ajTp := rowDot jac s p
    if ajTp ≤ 0 then st
    else
      let ajTx := rowDot jac s xk
      let alpha := (vGet jac.b s - ajTx) / ajTp
      if alpha < st.1 then (alpha, (factorIx : Int), (s : Int)) else st
  else st

/-- QPSolver::computeStepSize: the ratio test.  Scans the rows of every
constrained factor of the working graph; an inactive inequality row
(negative sigma in the working copy) with positive directional slope
contributes the candidate (b - a.xk) / (a.p); the state keeps the
minimum candidate, starting from 1, and the row achieving it (strict
improvement only), starting from the sentinel pair (-1, -1). -/
def computeStepSize (cIdx : List ℕ) (working : GaussianFactorGraph)
    (xk p : VectorValues) : ℚ × Int × Int :=
  cIdx.foldl
    (fun st factorIx =>
      (List.range (gAt working factorIx).sigmas.length).foldl
        (stepSizeRow working xk p factorIx) st)
    (1, -1, -1)

/-- QPSolver::updateWorkingSetInplace: reject negative (sentinel) indices
without touching the graph, otherwise overwrite the one designated row
scale with the new value. -/
def updateWorkingSetInplace (working : GaussianFactorGraph)
    (factorIx sigmaIx : Int) (newSigma : ℚ) : Bool × GaussianFactorGraph :=
  if factorIx < 0 ∨ sigmaIx < 0 then (false, working)
  else
    let fi := factorIx.toNat
    let jac := gAt working fi
    (true, working.set fi { jac with sigmas := jac.sigmas.set sigmaIx.toNat newSigma })

/-- One step of the findWorstViolatedActiveIneq scan: state is
(worstFactorIx, worstSigmaIx, maxLambda); a row qualifies when its
original sigma is negative (inequality row role) and its multiplier
strictly exceeds the running maximum. -/
def worstRowStep (graph : GaussianFactorGraph) (lambdas : VectorValues)
    (factorIx : ℕ) (st : Int × Int × ℚ) (j : ℕ) : Int × Int × ℚ :=
  if vGet (gAt graph factorIx).sigmas j < 0 ∧ st.2.2 < vGet (vvAt lambdas factorIx) j then
    ((factorIx : Int), (j : Int), vGet (vvAt lambdas factorIx) j)
  else st

/-- QPSolver::findWorstViolatedActiveIneq: scan the rows of the original
constrained factors; among the inequality rows (original sigma negative)
with strictly positive multiplier keep the one with the largest
multiplier, first encountered on ties; the sentinel (-1, -1) when none. -/
def worstScan (graph : GaussianFactorGraph) (cIdx : List ℕ)
    (lambdas : VectorValues) : Int × Int × ℚ :=
  cIdx.foldl
    (fun st factorIx =>
      (List.range (gAt graph factorIx).sigmas.length).foldl
        (worstRowStep graph lambdas factorIx) st)
    (-1, -1, 0)

def findWorstViolatedActiveIneq (graph : GaussianFactorGraph) (cIdx : List ℕ)
    (lambdas : VectorValues) : Int × Int :=
  ((worstScan graph cIdx lambdas).1, (worstScan graph cIdx lambdas).2.1)

/-- Candidate step fraction contributed by one row of the working graph,
following the specification of the ratio test: only rows with negative
scale in the working copy are considered, rows with nonpositive
directional slope are skipped, otherwise the candidate is
(b_row - a_row.xk) / (a_row.p). -/
def rowCandidate (working : GaussianFactorGraph) (xk p : VectorValues)
    (i s : ℕ) : Option ℚ :=
  let jac := gAt working i
  if vGet jac.sigmas s < 0 ∧ 0 < rowDot jac s p
  then some ((vGet jac.b s - rowDot jac s xk) / rowDot jac s p)
  else none

/-- All candidate step fractions of the ratio test, in scan order. -/
def stepCandidates (cIdx : List ℕ) (working : GaussianFactorGraph)
    (xk p : VectorValues) : List ℚ :=
  (cIdx.map (fun i =>
    (List.range (gAt working i).sigmas.length).filterMap
      (rowCandidate working xk p i))).flatten

/-- Fold one optional candidate into a running minimum. -/
def minOpt (m : ℚ) (c : Option ℚ) : ℚ :=
  match c with
  | some x => min m x
  | none => m

/-- The (factor index, row index) pairs scanned by the worst-violation
selection, in scan order: constrained factors in increasing index order,
rows of each factor in increasing order. -/
def rowPairs (graph : GaussianFactorGraph) (cIdx : List ℕ) : List (ℕ × ℕ) :=
  (cIdx.map (fun i =>
    (List.range (gAt graph i).sigmas.length).map (fun j => (i, j)))).flatten

/-- Original scale of a scanned row. -/
def sigmaAt (graph : GaussianFactorGraph) (ij : ℕ × ℕ) : ℚ :=
  vGet (gAt graph ij.1).sigmas ij.2

/-- Multiplier of a scanned row (the lambda vector of the factor is keyed
by the factor index). -/
def lamAt (lambdas : VectorValues) (ij : ℕ × ℕ) : ℚ :=
  vGet (vvAt lambdas ij.1) ij.2

/-- A row qualifies for the worst-violation selection when it is an
inequality row of the original graph (negative original scale) and its
multiplier is strictly positive. -/
def rowQualifies (graph : GaussianFactorGraph) (lambdas : VectorValues)
    (ij : ℕ × ℕ) : Prop :=
  sigmaAt graph ij < 0 ∧ 0 < lamAt lambdas ij

/-- The scan step of findWorstViolatedActiveIneq on a flattened row pair. -/
def worstPairStep (graph : GaussianFactorGraph) (lambdas : VectorValues)
    (st : Int × Int × ℚ) (ij : ℕ × ℕ) : Int × Int × ℚ :=
  worstRowStep graph lambdas ij.1 st ij.2

/-- Invariant of the worst-violation scan after processing the pair
list L: either the state is still the sentinel and no processed row
qualifies, or the state holds the first processed row achieving the
maximum multiplier among the qualifying processed rows. -/
def WorstInv (graph : GaussianFactorGraph) (lambdas : VectorValues)
    (L : List (ℕ × ℕ)) (st : Int × Int × ℚ) : Prop :=
  (st = (-1, -1, 0) ∧ ∀ ij ∈ L, ¬ rowQualifies graph lambdas ij) ∨
  (∃ l1 p l2, L = l1 ++ p :: l2 ∧ rowQualifies graph lambdas p ∧
    st = ((p.1 : Int), (p.2 : Int), lamAt lambdas p) ∧
    (∀ kl ∈ L, rowQualifies graph lambdas kl →
      lamAt lambdas kl ≤ lamAt lambdas p) ∧
    (∀ kl ∈ l1, rowQualifies graph lambdas kl →
      lamAt lambdas kl < lamAt lambdas p))

/-- A Hessian (quadratic) factor of the precomputed cost subgraph: keys,
the dimension of each key position, the stored upper-triangular
information blocks (meaningful for position pairs i <= j) and the linear
term per position.  The conversion from row factors to Hessian factors
is elimination algebra performed by an external collaborator. -/
structure HessianFactor where
  keys : List ℕ
  dims : List ℕ
  info : ℕ → ℕ → Mat
  lin : ℕ → Vec

instance : Inhabited HessianFactor :=
  ⟨⟨[], [], fun _ _ => [], fun _ => []⟩⟩

/-- Position of a key inside a Hessian factor (C++ Factor::find; the
absent case corresponds to the past-the-end iterator). -/
def HessianFactor.find (f : HessianFactor) (k : ℕ) : Option ℕ :=
  f.keys.indexOf? k

/-- Dimension of the variable at a position of a Hessian factor. -/
def HessianFactor.getDim (f : HessianFactor) (pos : ℕ) : ℕ :=
  f.dims.getD pos 0

/-- Factor of a Hessian graph at an index. -/
def hAt (fhg : List HessianFactor) (i : ℕ) : HessianFactor := fhg.getD i default

/-- The information block G_ij of a Hessian factor for positions i, j:
only the upper-triangular blocks are stored, so the stored block is
transposed when i comes after j (the code branch xi > xj). -/
def Gblock (f : HessianFactor) (i j : ℕ) : Mat :=
  if j < i then matT (f.info j i) else f.info i j

/-- Indices of the Hessian factors touching a key, in increasing order
(the VariableIndex freeHessianFactorIndex_ entry of that key). -/
def factorsOf (fhg : List HessianFactor) (k : ℕ) : List ℕ :=
  (List.range fhg.length).filter (fun i => (hAt fhg i).keys.contains k)

/-- The dimension the dual builder uses for a constrained variable: it is
looked up in factor index 0 of the free-Hessian graph — not in a factor
known to touch the variable; the none case models the unguarded
past-the-end access of the C++ code. -/
def dualXiDim (fhg : List HessianFactor) (xiKey : ℕ) : Option ℕ :=
  ((hAt fhg 0).find xiKey).map (hAt fhg 0).getDim

/-- Contribution of one Hessian factor to the unconstrained gradient of
variable xi: the inner loop over the factor positions accumulating
G_ij * x0_j, followed by subtracting the linear term. -/
def gradfFactor (x0 : VectorValues) (f : HessianFactor) (xi : ℕ)
    (acc : Vec) : Vec :=
  vadd
    ((List.range f.keys.length).foldl
      (fun a xj => vadd a (matVec (Gblock f xi xj) (vvAt x0 (f.keys.getD xj 0))))
      acc)
    (vneg (f.lin xi))

/-- The unconstrained gradient of the cost at x0 restricted to xiKey,
accumulated over the free-Hessian factors touching xiKey just as in the
b-vector loop of buildDualGraph. -/
def gradf (fhg : List HessianFactor) (x0 : VectorValues) (xiKey : ℕ)
    (xiDim : ℕ) : Vec :=
  (factorsOf fhg xiKey).foldl
    (fun acc fIx =>
      gradfFactor x0 (hAt fhg fIx) (((hAt fhg fIx).find xiKey).getD 0) acc)
    (vzero xiDim)

/-- Insert a key into an ascending duplicate-free list. -/
def insertAsc (n : ℕ) : List ℕ → List ℕ
  | [] => [n]
  | m :: l =>
    if n < m then n :: m :: l
    else if n = m then m :: l
    else m :: insertAsc n l

/-- The constrained variables iterated by buildDualGraph: the keys of the
free-Hessian graph in the ascending order of its VariableIndex. -/
def dualVars (fhg : List HessianFactor) : List ℕ :=
  (fhg.foldl (fun acc f => acc ++ f.keys) []).foldr insertAsc []

/-- Zero out one column of a matrix. -/
def zeroCol (m : Mat) (c : ℕ) : Mat := m.map (fun r => r.set c 0)

/-- The lambda coefficient block of one constrained factor for the dual
equation of xiKey: the transpose of the factor block for xiKey, with a
zeroed column for every row whose scale has magnitude above the 1e-9
threshold (a row not enforced in the working set), together with the
list of those row indices (they receive zero priors). -/
def lambdaTermFor (graph : GaussianFactorGraph) (xiKey : ℕ)
    (factorIndex : ℕ) : Mat × List ℕ :=
  (List.range (gAt graph factorIndex).sigmas.length).foldl
    (fun (st : Mat × List ℕ) sigmaIx =>
      if 1 / 1000000000 < |vGet (gAt graph factorIndex).sigmas sigmaIx| then
        (zeroCol st.1 sigmaIx, st.2 ++ [sigmaIx])
      else st)
    (matT ((gAt graph factorIndex).A.getD
      (((gAt graph factorIndex).keys.indexOf? xiKey).getD 0) []), [])

/-- The dual factors contributed by one constrained variable: the main
row factor tying the lambda variables (keyed by constrained factor
index) to the unconstrained gradient, with an exact (all-zero-sigma)
model unless the least-squares fallback is requested, followed by one
unit-model zero prior per unenforced row. -/
def dualFactorsForVar (graph : GaussianFactorGraph) (fhg : List HessianFactor)
    (x0 : VectorValues) (useLS : Bool) (xiKey : ℕ) : List JacobianFactor :=
  let g := gradf fhg x0 xiKey ((dualXiDim fhg xiKey).getD 0)
  let cFactors := (List.range graph.length).filter
    (fun i => (gAt graph i).keys.contains xiKey && (gAt graph i).isConstrained)
  let mainFactor : JacobianFactor :=
    { keys := cFactors
      A := cFactors.map (fun fi => (lambdaTermFor graph xiKey fi).1)
      b := g
      sigmas := if useLS then List.replicate g.length 1
                else List.replicate g.length 0 }
  let priors := ((cFactors.map (fun fi =>
      (lambdaTermFor graph xiKey fi).2.map (fun sIx => (fi, sIx)))).flatten).map
    (fun fs =>
      let dim := (gAt graph fs.1).sigmas.length
      ({ keys := [fs.1]
         A := [(List.range dim).map
           (fun r => if r = fs.2 then (vzero dim).set fs.2 1 else vzero dim)]
         b := vzero dim
         sigmas := List.replicate dim 1 } : JacobianFactor))
  mainFactor :: priors

/-- QPSolver::buildDualGraph: one block of dual factors per constrained
variable of the precomputed free-Hessian graph (variables touching no
free-Hessian factor are skipped). -/
def buildDualGraph (graph : GaussianFactorGraph) (fhg : List HessianFactor)
    (x0 : VectorValues) (useLS : Bool) : GaussianFactorGraph :=
  (dualVars fhg).foldl
    (fun dg xiKey =>
      if (factorsOf fhg xiKey).length = 0 then dg
      else dg ++ dualFactorsForVar graph fhg x0 useLS xiKey)
    []

/-- Modelled from the spec: the external VectorValues equality check with
a fixed absolute tolerance over matching keys. -/
def vvEquals (a b : VectorValues) (t : ℚ) : Bool :=
  a.length == b.length &&
  (List.zip a b).all (fun pq =>
    pq.1.1 == pq.2.1 && pq.1.2.length == pq.2.2.length &&
    (List.zip pq.1.2 pq.2.2).all (fun xy => decide (|xy.1 - xy.2| ≤ t)))

/-- Modelled from the spec: external VectorValues subtraction over the
shared key structure. -/
def vvSub (a b : VectorValues) : VectorValues :=
  List.zipWith (fun pa pb => (pa.1, List.zipWith (· - ·) pa.2 pb.2)) a b

/-- Modelled from the spec: external VectorValues scaling. -/
def vvScale (c : ℚ) (p : VectorValues) : VectorValues :=
  p.map (fun kv => (kv.1, kv.2.map (c * ·)))

/-- Modelled from the spec: external VectorValues addition over the
shared key structure. -/
def vvAdd (a b : VectorValues) : VectorValues :=
  List.zipWith (fun pa pb => (pa.1, List.zipWith (· + ·) pa.2 pb.2)) a b

/-- The fixed tolerance of the solution-unchanged check. -/
def tol : ℚ := 1 / 100000

/-- The state mutated across iterations: the immutable original problem
graph and its precomputed free-Hessian cost subgraph, the working value
copy, and the current assignment. -/
structure QPState where
  orig : GaussianFactorGraph
  freeHessians : List HessianFactor
  working : GaussianFactorGraph
  current : VectorValues

/-- QPSolver::iterateInPlace, parameterised by the external linear-solve
collaborator (used both for the working sub-problem and for the dual
graph).  Returns the CONVERGED flag together with the state after the
iteration; only the working graph and current solution components are
ever replaced. -/
def iterateInPlace (solve : GaussianFactorGraph → VectorValues)
    (s : QPState) : Bool × QPState :=
  let newSolution := solve s.working
  if vvEquals newSolution s.current tol then
    let dualGraph := buildDualGraph s.working s.freeHessians newSolution false
    let lambdas := solve dualGraph
    let ws := findWorstViolatedActiveIneq s.orig (constraintIndicesOf s.orig)
      lambdas
    let upd := updateWorkingSetInplace s.working ws.1 ws.2 (-1)
    if upd.1 then (false, { s with working := upd.2 }) else (true, s)
  else
    let p := vvSub newSolution s.current
    let step := computeStepSize (constraintIndicesOf s.orig) s.working
      s.current p
    let upd := updateWorkingSetInplace s.working step.2.1 step.2.2 0
    (false, { s with working := upd.2,
                     current := vvAdd s.current (vvScale step.1 p) })

/-- The iterate-until-converged loop, with explicit fuel since the
active-set loop has no termination guarantee on degenerate problems. -/
def optimizeLoop (solve : GaussianFactorGraph → VectorValues) :
    ℕ → QPState → QPState
  | 0, s => s
  | Nat.succ n, s =>
    let r := iterateInPlace solve s
    if r.1 then r.2 else optimizeLoop solve n r.2

/-- QPSolver::optimize: clone the original graph into the working copy
once, then iterate. -/
def optimize (solve : GaussianFactorGraph → VectorValues)
    (graph : GaussianFactorGraph) (fhg : List HessianFactor)
    (initials : VectorValues) (fuel : ℕ) : QPState :=
  optimizeLoop solve fuel
    { orig := graph, freeHessians := fhg, working := graph,
      current := initials }

/-- The near-zero sigma threshold of the aggregator (1e-9). -/
def eps : ℚ := 1 / 1000000000

/-- The reduced precision vector of the constrained branch of
unconstrainedHessiansOfConstrainedVars: zero precision for every row
with sigma at most the threshold, reciprocal sigma otherwise. -/
def newPrecisions (sigmas : Vec) : Vec :=
  sigmas.map (fun s => if s ≤ eps then 0 else 1 / s)

/-- The mixed flag of the same loop: set exactly when some row has sigma
above the threshold. -/
def hasFreeRow (sigmas : Vec) : Bool :=
  sigmas.any (fun s => decide (eps < s))

/-- The constrained-factor branch of the aggregator: the reduced clone
paired with its new precision vector (the model set on the clone before
conversion to a Hessian factor, which is external elimination algebra),
included only when the mixed flag was set. -/
def reduceMixedConstrained (jf : JacobianFactor) :
    Option (JacobianFactor × Vec) :=
  if hasFreeRow jf.sigmas then some (jf, newPrecisions jf.sigmas) else none

/-- Well-formedness of one free-Hessian factor for the dual equation of
xiKey at gradient dimension d: every information block for the position
of xiKey has d rows and the linear term at that position has length d. -/
def factorWF (fhg : List HessianFactor) (xiKey d fIx : ℕ) : Prop :=
  (∀ xj, xj < (hAt fhg fIx).keys.length →
    (Gblock (hAt fhg fIx) (((hAt fhg fIx).find xiKey).getD 0) xj).length = d) ∧
  ((hAt fhg fIx).lin (((hAt fhg fIx).find xiKey).getD 0)).length = d

instance factorWF_decidable (fhg : List HessianFactor) (xiKey d fIx : ℕ) :
    Decidable (factorWF fhg xiKey d fIx) := by
  unfold factorWF
  infer_instance

/-- Specification-side gradient contribution of one free-Hessian factor
to row r of the dual right-hand side of xiKey: the sum over the factor
positions of the product of the (transpose-corrected) information block
row with the assignment of that position, minus the linear term entry. -/
def gradContrib (fhg : List HessianFactor) (x0 : VectorValues)
    (xiKey r fIx : ℕ) : ℚ :=
  ((List.range (hAt fhg fIx).keys.length).map (fun xj =>
    dot ((Gblock (hAt fhg fIx) (((hAt fhg fIx).find xiKey).getD 0) xj).getD r [])
        (vvAt x0 ((hAt fhg fIx).keys.getD xj 0)))).sum
  - vGet ((hAt fhg fIx).lin (((hAt fhg fIx).find xiKey).getD 0)) r

/-- A concrete two-variable free-Hessian factor used by the witnesses:
keys 0 and 1 of dimension 1, stored blocks G00 = [[2]], G01 = [[1]],
G11 = [[3]], linear terms [5] and [7]. -/
def exHessian : HessianFactor :=
  ⟨[0, 1], [1, 1],
   fun i j =>
     if i = 0 ∧ j = 0 then [[2]]
     else if i = 0 ∧ j = 1 then [[1]]
     else if i = 1 ∧ j = 1 then [[3]]
     else [[0]],
   fun pos => if pos = 0 then [5] else [7]⟩

/-- A concrete assignment for the witnesses: x0 = [1], x1 = [2]. -/
def exX0 : VectorValues := [(0, [1]), (1, [2])]

lemma foldl_proj {σ τ α : Type*} (π : σ → τ) (g : σ → α → σ) (h : τ → α → τ)
    (hc : ∀ st x, π (g st x) = h (π st) x) :
    ∀ (l : List α) (st : σ), π (l.foldl g st) = l.foldl h (π st) := by
  intro l
  induction l with
  | nil => intro st; rfl
  | cons x xs ih => intro st; simp only [List.foldl_cons, ih, hc]

lemma stepSizeRow_fst (working : GaussianFactorGraph) (xk p : VectorValues)
    (i : ℕ) (st : ℚ × Int × Int) (s : ℕ) :
    (stepSizeRow working xk p i st s).1 = minOpt st.1 (rowCandidate working xk p i s) := by
  unfold stepSizeRow rowCandidate minOpt
  by_cases h1 : vGet (gAt working i).sigmas s < 0
  · by_cases h2 : rowDot (gAt working i) s p ≤ 0
    · simp [h1, h2, not_lt.mpr h2]
    · have h2' : 0 < rowDot (gAt working i) s p := lt_of_not_le h2
      by_cases h3 :
          (vGet (gAt working i).b s - rowDot (gAt working i) s xk) /
            rowDot (gAt working i) s p < st.1
      · simp [h1, h2, h2', h3, min_eq_right (le_of_lt h3)]
      · simp [h1, h2, h2', h3, min_eq_left (not_lt.mp h3)]
  · simp [h1]

lemma minOpt_none (m : ℚ) : minOpt m none = m := rfl

lemma minOpt_some (m x : ℚ) : minOpt m (some x) = min m x := rfl

lemma foldl_minOpt_filterMap {α : Type*} (f : α → Option ℚ) :
    ∀ (l : List α) (a : ℚ),
      l.foldl (fun m x => minOpt m (f x)) a = (l.filterMap f).foldl min a := by
  intro l
  induction l with
  | nil => intro a; rfl
  | cons x xs ih =>
    intro a
    cases hfx : f x with
    | none =>
      simp only [List.foldl_cons, List.filterMap_cons, hfx, minOpt_none]
      exact ih a
    | some c =>
      simp only [List.foldl_cons, List.filterMap_cons, hfx, minOpt_some]
      exact ih (min a c)

lemma foldl_congr_fun {α β : Type*} {f g : β → α → β} :
    ∀ (l : List α) (b : β), (∀ m x, x ∈ l → f m x = g m x) →
      l.foldl f b = l.foldl g b := by
  intro l
  induction l with
  | nil => intro b _; rfl
  | cons x xs ih =>
    intro b h
    simp only [List.foldl_cons, h b x (by simp)]
    exact ih _ (fun m y hy => h m y (by simp [hy]))

lemma foldl_min_le_init : ∀ (l : List ℚ) (a : ℚ), l.foldl min a ≤ a := by
  intro l
  induction l with
  | nil => intro a; exact le_refl a
  | cons x xs ih =>
    intro a
    exact le_trans (ih (min a x)) (min_le_left a x)

lemma foldl_min_lower (b : ℚ) : ∀ (l : List ℚ) (a : ℚ),
    b ≤ a → (∀ c ∈ l, b ≤ c) → b ≤ l.foldl min a := by
  intro l
  induction l with
  | nil => intro a ha _; exact ha
  | cons x xs ih =>
    intro a ha hl
    exact ih (min a x) (le_min ha (hl x (by simp)))
      (fun c hc => hl c (by simp [hc]))

lemma computeStepSize_fst (cIdx : List ℕ) (working : GaussianFactorGraph)
    (xk p : VectorValues) :
    (computeStepSize cIdx working xk p).1 =
      (stepCandidates cIdx working xk p).foldl min 1 := by
  unfold computeStepSize stepCandidates
  rw [List.foldl_flatten, List.foldl_map]
  have h := foldl_proj (σ := ℚ × Int × Int) (τ := ℚ) Prod.fst
    (fun st (i : ℕ) =>
      (List.range (gAt working i).sigmas.length).foldl (stepSizeRow working xk p i) st)
    (fun m (i : ℕ) =>
      (List.range (gAt working i).sigmas.length).foldl
        (fun m s => minOpt m (rowCandidate working xk p i s)) m)
    (fun st i => foldl_proj Prod.fst (stepSizeRow working xk p i)
      (fun m s => minOpt m (rowCandidate working xk p i s))
      (stepSizeRow_fst working xk p i) _ st)
  rw [h cIdx (1, -1, -1)]
  exact foldl_congr_fun cIdx 1 (fun m i _ => foldl_minOpt_filterMap _ _ m)

lemma getD_set_self {α : Type*} (l : List α) (i : ℕ) (x d : α)
    (h : i < l.length) : (l.set i x).getD i d = x := by
  simp [List.getD_eq_getElem?_getD, List.getElem?_set, h]

lemma getD_set_ne {α : Type*} (l : List α) (i j : ℕ) (x d : α)
    (h : i ≠ j) : (l.set i x).getD j d = l.getD j d := by
  simp [List.getD_eq_getElem?_getD, List.getElem?_set, h]

lemma gAt_set_self (g : GaussianFactorGraph) (i : ℕ) (x : JacobianFactor)
    (h : i < g.length) : gAt (g.set i x) i = x :=
  getD_set_self g i x default h

lemma gAt_set_ne (g : GaussianFactorGraph) (i j : ℕ) (x : JacobianFactor)
    (h : i ≠ j) : gAt (g.set i x) j = gAt g j :=
  getD_set_ne g i j x default h

lemma findWorst_eq_pairScan (graph : GaussianFactorGraph) (cIdx : List ℕ)
    (lambdas : VectorValues) :
    findWorstViolatedActiveIneq graph cIdx lambdas =
      (((rowPairs graph cIdx).foldl (worstPairStep graph lambdas) (-1, -1, 0)).1,
       ((rowPairs graph cIdx).foldl (worstPairStep graph lambdas) (-1, -1, 0)).2.1) := by
  have hAB : worstScan graph cIdx lambdas =
      (rowPairs graph cIdx).foldl (worstPairStep graph lambdas) (-1, -1, 0) := by
    unfold worstScan rowPairs
    rw [List.foldl_flatten, List.foldl_map]
    apply foldl_congr_fun
    intro m i _
    rw [List.foldl_map]
    rfl
  unfold findWorstViolatedActiveIneq
  rw [hAB]

lemma worstInv_step (graph : GaussianFactorGraph) (lambdas : VectorValues)
    (L : List (ℕ × ℕ)) (st : Int × Int × ℚ) (x : ℕ × ℕ)
    (h : WorstInv graph lambdas L st) :
    WorstInv graph lambdas (L ++ [x]) (worstPairStep graph lambdas st x) := by
  have hstep : worstPairStep graph lambdas st x =
      if sigmaAt graph x < 0 ∧ st.2.2 < lamAt lambdas x
      then ((x.1 : Int), (x.2 : Int), lamAt lambdas x) else st := rfl
  rcases h with ⟨hst, hnone⟩ | ⟨l1, p, l2, hL, hqp, hst, hmax, hstrict⟩
  · subst hst
    by_cases hq : sigmaAt graph x < 0 ∧ (0 : ℚ) < lamAt lambdas x
    · right
      refine ⟨L, x, [], rfl, hq, ?_, ?_, ?_⟩
      · rw [hstep, if_pos hq]
      · intro kl hkl hq'
        rcases List.mem_append.mp hkl with hkl | hkl
        · exact absurd hq' (hnone kl hkl)
        · rcases List.mem_singleton.mp hkl with rfl
          exact le_refl _
      · intro kl hkl hq'
        exact absurd hq' (hnone kl hkl)
    · left
      refine ⟨by rw [hstep, if_neg hq], ?_⟩
      intro ij hij
      rcases List.mem_append.mp hij with hij | hij
      · exact hnone ij hij
      · rcases List.mem_singleton.mp hij with rfl
        exact hq
  · subst hst
    by_cases hc : sigmaAt graph x < 0 ∧ lamAt lambdas p < lamAt lambdas x
    · right
      have hqx : rowQualifies graph lambdas x :=
        ⟨hc.1, lt_trans hqp.2 hc.2⟩
      refine ⟨L, x, [], rfl, hqx, by rw [hstep, if_pos hc], ?_, ?_⟩
      · intro kl hkl hq'
        rcases List.mem_append.mp hkl with hkl | hkl
        · exact le_of_lt (lt_of_le_of_lt (hmax kl hkl hq') hc.2)
        · rcases List.mem_singleton.mp hkl with rfl
          exact le_refl _
      · intro kl hkl hq'
        exact lt_of_le_of_lt (hmax kl hkl hq') hc.2
    · right
      refine ⟨l1, p, l2 ++ [x], by rw [hL]; simp, hqp,
        by rw [hstep, if_neg hc], ?_, hstrict⟩
      intro kl hkl hq'
      rcases List.mem_append.mp hkl with hkl | hkl
      · exact hmax kl hkl hq'
      · rcases List.mem_singleton.mp hkl with rfl
        by_contra hlt
        exact hc ⟨hq'.1, lt_of_not_le (fun hle => hlt (by simpa using hle))⟩

lemma worstScan_invariant (graph : GaussianFactorGraph)
    (lambdas : VectorValues) (L : List (ℕ × ℕ)) :
    WorstInv graph lambdas L
      (L.foldl (worstPairStep graph lambdas) (-1, -1, 0)) := by
  induction L using List.reverseRecOn with
  | nil => exact Or.inl ⟨rfl, by simp⟩
  | append_singleton l x ih =>
    rw [List.foldl_append, List.foldl_cons, List.foldl_nil]
    exact worstInv_step graph lambdas l _ x ih

lemma constraintIndices_sorted (g : GaussianFactorGraph) :
    (constraintIndicesOf g).Pairwise (· < ·) :=
  (List.pairwise_lt_range g.length).filter _

lemma rowPairs_pairwise (g : GaussianFactorGraph) (cIdx : List ℕ)
    (hc : cIdx.Pairwise (· < ·)) :
    (rowPairs g cIdx).Pairwise
      (fun a b => a.1 < b.1 ∨ (a.1 = b.1 ∧ a.2 < b.2)) := by
  unfold rowPairs
  rw [List.pairwise_flatten]
  constructor
  · intro l hl
    rcases List.mem_map.mp hl with ⟨i, _, rfl⟩
    rw [List.pairwise_map]
    exact (List.pairwise_lt_range _).imp (fun hab => Or.inr ⟨rfl, hab⟩)
  · rw [List.pairwise_map]
    refine hc.imp ?_
    intro i1 i2 h12
    intro x hx y hy
    rcases List.mem_map.mp hx with ⟨j1, _, rfl⟩
    rcases List.mem_map.mp hy with ⟨j2, _, rfl⟩
    exact Or.inl h12

lemma findWorst_sentinel_or_nonneg (graph : GaussianFactorGraph)
    (cIdx : List ℕ) (lambdas : VectorValues) :
    findWorstViolatedActiveIneq graph cIdx lambdas = (-1, -1) ∨
    (0 ≤ (findWorstViolatedActiveIneq graph cIdx lambdas).1 ∧
      0 ≤ (findWorstViolatedActiveIneq graph cIdx lambdas).2) := by
  have heq := findWorst_eq_pairScan graph cIdx lambdas
  rcases worstScan_invariant graph lambdas (rowPairs graph cIdx) with
    ⟨hst, _⟩ | ⟨l1, p, l2, _, _, hst, _, _⟩
  · left
    rw [heq, hst]
  · right
    rw [heq, hst]
    exact ⟨Int.natCast_nonneg _, Int.natCast_nonneg _⟩

lemma iterate_preserves (solve : GaussianFactorGraph → VectorValues)
    (s : QPState) :
    (iterateInPlace solve s).2.orig = s.orig ∧
      (iterateInPlace solve s).2.freeHessians = s.freeHessians := by
  unfold iterateInPlace
  by_cases hEq : vvEquals (solve s.working) s.current tol = true
  · simp only [hEq, if_true]
    by_cases hupd : (updateWorkingSetInplace s.working
        (findWorstViolatedActiveIneq s.orig (constraintIndicesOf s.orig)
          (solve (buildDualGraph s.working s.freeHessians (solve s.working)
            false))).1
        (findWorstViolatedActiveIneq s.orig (constraintIndicesOf s.orig)
          (solve (buildDualGraph s.working s.freeHessians (solve s.working)
            false))).2 (-1)).1 = true
    · simp [hupd]
    · have hupd' := eq_false_of_ne_true hupd
      simp [hupd']
  · simp [hEq]

lemma optimizeLoop_preserves (solve : GaussianFactorGraph → VectorValues) :
    ∀ (fuel : ℕ) (s : QPState),
      (optimizeLoop solve fuel s).orig = s.orig ∧
        (optimizeLoop solve fuel s).freeHessians = s.freeHessians := by
  intro fuel
  induction fuel with
  | zero => intro s; exact ⟨rfl, rfl⟩
  | succ n ih =>
    intro s
    simp only [optimizeLoop]
    by_cases h : (iterateInPlace solve s).1 = true
    · simp only [h, if_true]
      exact iterate_preserves solve s
    · simp only [eq_false_of_ne_true h, Bool.false_eq_true, if_false]
      refine ⟨?_, ?_⟩
      · rw [(ih _).1, (iterate_preserves solve s).1]
      · rw [(ih _).2, (iterate_preserves solve s).2]

lemma vGet_eq (v : Vec) (r : ℕ) : vGet v r = v[r]?.getD 0 := by
  unfold vGet
  rw [List.getD_eq_getElem?_getD]

lemma length_vadd (a b : Vec) : (vadd a b).length = min a.length b.length :=
  List.length_zipWith _ _ _

lemma length_matVec (m : Mat) (v : Vec) : (matVec m v).length = m.length :=
  List.length_map _ _

lemma length_vneg (a : Vec) : (vneg a).length = a.length :=
  List.length_map _ _

lemma length_vzero (n : ℕ) : (vzero n).length = n :=
  List.length_replicate _ _

lemma vGet_vadd (a b : Vec) (r : ℕ) (ha : r < a.length) (hb : r < b.length) :
    vGet (vadd a b) r = vGet a r + vGet b r := by
  unfold vadd
  rw [vGet_eq, vGet_eq, vGet_eq, List.getElem?_zipWith,
    List.getElem?_eq_getElem ha, List.getElem?_eq_getElem hb]
  rfl

lemma vGet_matVec (m : Mat) (v : Vec) (r : ℕ) (h : r < m.length) :
    vGet (matVec m v) r = dot (m.getD r []) v := by
  unfold matVec
  rw [vGet_eq, List.getElem?_map, List.getElem?_eq_getElem h,
    List.getD_eq_getElem?_getD, List.getElem?_eq_getElem h]
  rfl

lemma vGet_vneg (a : Vec) (r : ℕ) (h : r < a.length) :
    vGet (vneg a) r = -(vGet a r) := by
  unfold vneg
  rw [vGet_eq, vGet_eq, List.getElem?_map, List.getElem?_eq_getElem h]
  rfl

lemma vGet_vzero (n r : ℕ) : vGet (vzero n) r = 0 := by
  unfold vzero
  rw [vGet_eq, List.getElem?_replicate]
  by_cases h : r < n
  · rw [if_pos h]
    rfl
  · rw [if_neg h]
    rfl

lemma gradf_inner (x0 : VectorValues) (f : HessianFactor) (xi : ℕ)
    (d r : ℕ) (hr : r < d) :
    ∀ (l : List ℕ) (acc : Vec), acc.length = d →
      (∀ xj ∈ l, (Gblock f xi xj).length = d) →
      vGet (l.foldl
          (fun a xj =>
            vadd a (matVec (Gblock f xi xj) (vvAt x0 (f.keys.getD xj 0)))) acc) r
          = vGet acc r +
            (l.map (fun xj =>
              dot ((Gblock f xi xj).getD r []) (vvAt x0 (f.keys.getD xj 0)))).sum ∧
      (l.foldl
          (fun a xj =>
            vadd a (matVec (Gblock f xi xj) (vvAt x0 (f.keys.getD xj 0)))) acc).length
        = d := by
  intro l
  induction l with
  | nil =>
    intro acc hacc _
    exact ⟨by simp, hacc⟩
  | cons xj xs ih =>
    intro acc hacc hG
    have hGx : (Gblock f xi xj).length = d := hG xj (by simp)
    have hlen1 : (vadd acc (matVec (Gblock f xi xj)
        (vvAt x0 (f.keys.getD xj 0)))).length = d := by
      rw [length_vadd, length_matVec, hacc, hGx]
      exact min_self d
    have ihh := ih (vadd acc (matVec (Gblock f xi xj)
      (vvAt x0 (f.keys.getD xj 0)))) hlen1
      (fun y hy => hG y (by simp [hy]))
    refine ⟨?_, by rw [List.foldl_cons]; exact ihh.2⟩
    rw [List.foldl_cons, ihh.1,
      vGet_vadd _ _ r (by rw [hacc]; exact hr)
        (by rw [length_matVec, hGx]; exact hr),
      vGet_matVec _ _ _ (by rw [hGx]; exact hr)]
    rw [List.map_cons, List.sum_cons]
    ring

lemma gradfFactor_pointwise (x0 : VectorValues) (f : HessianFactor)
    (xi d r : ℕ) (hr : r < d) (acc : Vec) (hacc : acc.length = d)
    (hG : ∀ xj, xj < f.keys.length → (Gblock f xi xj).length = d)
    (hlin : (f.lin xi).length = d) :
    vGet (gradfFactor x0 f xi acc) r
        = vGet acc r +
          ((List.range f.keys.length).map (fun xj =>
            dot ((Gblock f xi xj).getD r []) (vvAt x0 (f.keys.getD xj 0)))).sum
          - vGet (f.lin xi) r ∧
      (gradfFactor x0 f xi acc).length = d := by
  have hinner := gradf_inner x0 f xi d r hr (List.range f.keys.length) acc hacc
    (fun xj hxj => hG xj (List.mem_range.mp hxj))
  unfold gradfFactor
  constructor
  · rw [vGet_vadd _ _ r (by rw [hinner.2]; exact hr)
        (by rw [length_vneg, hlin]; exact hr),
      hinner.1, vGet_vneg _ _ (by rw [hlin]; exact hr)]
    ring
  · rw [length_vadd, hinner.2, length_vneg, hlin]
    exact min_self d

lemma gradf_outer (fhg : List HessianFactor) (x0 : VectorValues)
    (xiKey d r : ℕ) (hr : r < d) :
    ∀ (l : List ℕ) (acc : Vec), acc.length = d →
      (∀ fIx ∈ l, factorWF fhg xiKey d fIx) →
      vGet (l.foldl (fun acc fIx =>
          gradfFactor x0 (hAt fhg fIx) (((hAt fhg fIx).find xiKey).getD 0) acc)
          acc) r
          = vGet acc r + (l.map (gradContrib fhg x0 xiKey r)).sum ∧
        (l.foldl (fun acc fIx =>
          gradfFactor x0 (hAt fhg fIx) (((hAt fhg fIx).find xiKey).getD 0) acc)
          acc).length = d := by
  intro l
  induction l with
  | nil =>
    intro acc hacc _
    exact ⟨by simp, hacc⟩
  | cons fIx xs ih =>
    intro acc hacc hwf
    have hw := hwf fIx (by simp)
    have hstep := gradfFactor_pointwise x0 (hAt fhg fIx)
      (((hAt fhg fIx).find xiKey).getD 0) d r hr acc hacc hw.1 hw.2
    have ihh := ih (gradfFactor x0 (hAt fhg fIx)
      (((hAt fhg fIx).find xiKey).getD 0) acc) hstep.2
      (fun y hy => hwf y (by simp [hy]))
    refine ⟨?_, by rw [List.foldl_cons]; exact ihh.2⟩
    rw [List.foldl_cons, ihh.1, hstep.1, List.map_cons, List.sum_cons]
    unfold gradContrib
    ring

lemma foldl_length_inv {α : Type*} (g : Vec → α → Vec) (d : ℕ) :
    ∀ (l : List α), (∀ (a : Vec) (x : α), x ∈ l → a.length = d →
        (g a x).length = d) →
      ∀ acc : Vec, acc.length = d → (l.foldl g acc).length = d := by
  intro l
  induction l with
  | nil =>
    intro _ acc hacc
    exact hacc
  | cons x xs ih =>
    intro hg acc hacc
    rw [List.foldl_cons]
    exact ih (fun a y hy ha => hg a y (by simp [hy]) ha) _
      (hg acc x (by simp) hacc)

lemma gradfFactor_length (x0 : VectorValues) (f : HessianFactor)
    (xi d : ℕ) (acc : Vec) (hacc : acc.length = d)
    (hG : ∀ xj, xj < f.keys.length → (Gblock f xi xj).length = d)
    (hlin : (f.lin xi).length = d) :
    (gradfFactor x0 f xi acc).length = d := by
  unfold gradfFactor
  rw [length_vadd, length_vneg, hlin]
  have hl := foldl_length_inv
    (fun a xj => vadd a (matVec (Gblock f xi xj) (vvAt x0 (f.keys.getD xj 0))))
    d (List.range f.keys.length)
    (fun a xj hxj ha => by
      rw [length_vadd, length_matVec, ha, hG xj (List.mem_range.mp hxj)]
      exact min_self d)
    acc hacc
  rw [hl]
  exact min_self d

lemma gradf_length (fhg : List HessianFactor) (x0 : VectorValues)
    (xiKey d : ℕ)
    (hwf : ∀ fIx ∈ factorsOf fhg xiKey, factorWF fhg xiKey d fIx) :
    (gradf fhg x0 xiKey d).length = d := by
  unfold gradf
  exact foldl_length_inv _ d (factorsOf fhg xiKey)
    (fun a fIx hfx ha =>
      gradfFactor_length x0 (hAt fhg fIx)
        (((hAt fhg fIx).find xiKey).getD 0) d a ha (hwf fIx hfx).1
        (hwf fIx hfx).2)
    (vzero d) (length_vzero d)

/-- C3 counterexample: the claim asserts the returned alpha is always
within [0, 1], but for a single inactive inequality row with
a.p = 1, a.xk = 5, b = 3 the candidate (3 - 5) / 1 = -2 is returned
unclamped, so the result is negative. -/
theorem stepSize_alpha_negative_cex :
    (computeStepSize [0] [⟨[0], [[[1]]], [3], [-1]⟩] [(0, [5])] [(0, [1])]).1 < 0 := by
  norm_num [computeStepSize, stepSizeRow, rowDot, gAt, vGet, dot, vvAt,
    List.lookup, List.range_succ, List.range_zero]

/-- C3 (amended): computeStepSize considers exactly the rows with
negative scale in the working copy, skips a row when a_row.p <= 0,
otherwise forms the candidate (b_row - a_row.xk) / (a_row.p), and
returns the minimum candidate starting from an upper bound of 1; the
returned alpha is therefore always at most 1, and it is within [0, 1]
whenever every candidate is nonnegative (for instance when the current
point is feasible for every inactive inequality row) — but it can be
negative when the current point violates an inactive row. -/
theorem computeStepSize_min_candidates (cIdx : List ℕ)
    (working : GaussianFactorGraph) (xk p : VectorValues) :
    (computeStepSize cIdx working xk p).1 =
        (stepCandidates cIdx working xk p).foldl min 1 ∧
      (computeStepSize cIdx working xk p).1 ≤ 1 ∧
      ((∀ c ∈ stepCandidates cIdx working xk p, 0 ≤ c) →
        0 ≤ (computeStepSize cIdx working xk p).1) := by
  refine ⟨computeStepSize_fst cIdx working xk p, ?_, ?_⟩
  · rw [computeStepSize_fst]
    exact foldl_min_le_init _ 1
  · intro h
    rw [computeStepSize_fst]
    exact foldl_min_lower 0 _ 1 (by norm_num) h

/-- C3 witness: the amended theorem applied to a concrete feasible
instance, where the single candidate equals 1 and the result is 1. -/
theorem computeStepSize_min_candidates_witness :
    0 ≤ (computeStepSize [0] [⟨[0], [[[2]]], [5], [-1]⟩] [(0, [3/2])] [(0, [1])]).1 :=
  (computeStepSize_min_candidates [0] [⟨[0], [[[2]]], [5], [-1]⟩]
    [(0, [3/2])] [(0, [1])]).2.2
    (by norm_num [stepCandidates, rowCandidate, rowDot, gAt, vGet, dot, vvAt,
      List.lookup])

/-- C2 counterexample: for the single inactive inequality row with
a.p = 2, a.xk = 3, b = 5 the computed alpha is exactly (5 - 3) / 2 = 1,
but since the blocking-row update requires a strict improvement over the
initial upper bound 1, the sentinel pair (-1, -1) is returned — the row
is NOT identified as the new blocking constraint, contrary to the claim. -/
theorem stepSize_boundary_returns_sentinel_cex :
    computeStepSize [0] [⟨[0], [[[2]]], [5], [-1]⟩] [(0, [3/2])] [(0, [1])]
      = (1, -1, -1) := by
  norm_num [computeStepSize, stepSizeRow, rowDot, gAt, vGet, dot, vvAt,
    List.lookup, List.range_succ, List.range_zero]

/-- C2 (amended): for a working graph containing a single inactive
inequality row with a_row.p = 2, a_row.xk = 3 and b_row = 5, the ratio
test returns alpha exactly equal to 1, but it reports the sentinel pair
(-1, -1) instead of that row, because only candidates strictly below the
running minimum (initialised to 1) are recorded; the driver therefore
does not activate the boundary row. -/
theorem stepSize_boundary_alpha_one_sentinel
    (jf : JacobianFactor) (q : ℚ) (xk p : VectorValues)
    (hsig : jf.sigmas = [q]) (hneg : q < 0)
    (hp : rowDot jf 0 p = 2) (hx : rowDot jf 0 xk = 3) (hb : vGet jf.b 0 = 5) :
    computeStepSize [0] [jf] xk p = (1, -1, -1) := by
  have hg : gAt [jf] 0 = jf := rfl
  have hs0 : vGet jf.sigmas 0 = q := by rw [hsig]; rfl
  have hlen : (gAt [jf] 0).sigmas.length = 1 := by rw [hg, hsig]; rfl
  simp only [computeStepSize, List.foldl_cons, List.foldl_nil, hlen,
    List.range_succ, List.range_zero, List.nil_append]
  simp only [stepSizeRow, hg, hs0, hp, hx, hb, hneg, if_true]
  norm_num

/-- C2 witness: the amended theorem applied to a concrete one-row factor. -/
theorem stepSize_boundary_alpha_one_sentinel_witness :
    computeStepSize [0] [⟨[0], [[[2]]], [5], [-1]⟩] [(0, [3/2])] [(0, [1])]
      = (1, -1, -1) :=
  stepSize_boundary_alpha_one_sentinel ⟨[0], [[[2]]], [5], [-1]⟩ (-1)
    [(0, [3/2])] [(0, [1])] rfl (by norm_num)
    (by norm_num [rowDot, dot, vvAt, List.lookup])
    (by norm_num [rowDot, dot, vvAt, List.lookup])
    (by norm_num [vGet])

/-- C7: the working-set update rejects a negative (sentinel) factor or
row index with no mutation and result false; for non-negative valid
indices it overwrites exactly the designated row scale with the given
value, leaves every other row scale (and all keys, coefficient blocks
and right-hand sides) unchanged, and returns true. -/
theorem updateWorkingSet_spec (working : GaussianFactorGraph)
    (fIx sIx : Int) (v : ℚ) :
    ((fIx < 0 ∨ sIx < 0) →
      updateWorkingSetInplace working fIx sIx v = (false, working)) ∧
    (0 ≤ fIx → 0 ≤ sIx → fIx.toNat < working.length →
      sIx.toNat < (gAt working fIx.toNat).sigmas.length →
      (updateWorkingSetInplace working fIx sIx v).1 = true ∧
      (updateWorkingSetInplace working fIx sIx v).2.length = working.length ∧
      vGet (gAt (updateWorkingSetInplace working fIx sIx v).2 fIx.toNat).sigmas
          sIx.toNat = v ∧
      (∀ i j : ℕ, ¬(i = fIx.toNat ∧ j = sIx.toNat) →
        vGet (gAt (updateWorkingSetInplace working fIx sIx v).2 i).sigmas j =
          vGet (gAt working i).sigmas j) ∧
      (∀ i : ℕ,
        (gAt (updateWorkingSetInplace working fIx sIx v).2 i).keys =
            (gAt working i).keys ∧
          (gAt (updateWorkingSetInplace working fIx sIx v).2 i).A =
            (gAt working i).A ∧
          (gAt (updateWorkingSetInplace working fIx sIx v).2 i).b =
            (gAt working i).b)) := by
  constructor
  · intro h
    simp [updateWorkingSetInplace, h]
  · intro hf hs hfl hsl
    have hcond : ¬(fIx < 0 ∨ sIx < 0) := by omega
    simp only [updateWorkingSetInplace, hcond, if_false]
    refine ⟨by trivial, by simp [List.length_set], ?_, ?_, ?_⟩
    · rw [gAt_set_self _ _ _ hfl]
      exact getD_set_self _ _ _ _ hsl
    · intro i j hij
      by_cases hi : i = fIx.toNat
      · subst hi
        have hj : j ≠ sIx.toNat := fun hj => hij ⟨rfl, hj⟩
        rw [gAt_set_self _ _ _ hfl]
        exact getD_set_ne _ _ _ _ _ (fun h => hj h.symm)
      · rw [gAt_set_ne _ _ _ _ (fun h => hi h.symm)]
    · intro i
      by_cases hi : i = fIx.toNat
      · subst hi
        rw [gAt_set_self _ _ _ hfl]
        exact ⟨rfl, rfl, rfl⟩
      · rw [gAt_set_ne _ _ _ _ (fun h => hi h.symm)]
        exact ⟨rfl, rfl, rfl⟩

/-- C7 witness: the update theorem applied to a concrete two-row factor,
activating row 1 of factor 0. -/
theorem updateWorkingSet_spec_witness :
    (updateWorkingSetInplace [⟨[0], [[[1], [1]]], [3, 4], [-1, -1]⟩] 0 1 0).1
        = true ∧
      vGet (gAt (updateWorkingSetInplace
          [⟨[0], [[[1], [1]]], [3, 4], [-1, -1]⟩] 0 1 0).2 0).sigmas 1 = 0 ∧
      vGet (gAt (updateWorkingSetInplace
          [⟨[0], [[[1], [1]]], [3, 4], [-1, -1]⟩] 0 1 0).2 0).sigmas 0 = -1 := by
  have h := (updateWorkingSet_spec [⟨[0], [[[1], [1]]], [3, 4], [-1, -1]⟩]
    0 1 0).2 (by norm_num) (by norm_num) (by simp) (by simp [gAt])
  refine ⟨h.1, h.2.2.1, ?_⟩
  have := h.2.2.2.1 0 0 (by norm_num)
  rw [this]
  rfl

/-- C4: the worst-violation selection scans only the rows of the original
constrained factors; it returns the sentinel pair (-1, -1) exactly when
no inequality row (negative original scale) has a strictly positive
multiplier, and otherwise returns the factor/row indices of a qualifying
row whose multiplier is maximal among all qualifying rows, with ties
broken in favour of the first-encountered factor/row in index order. -/
theorem findWorst_spec (graph : GaussianFactorGraph) (lambdas : VectorValues) :
    (findWorstViolatedActiveIneq graph (constraintIndicesOf graph) lambdas
        = (-1, -1) ↔
      ∀ ij ∈ rowPairs graph (constraintIndicesOf graph),
        ¬ rowQualifies graph lambdas ij) ∧
    (∀ i j : ℕ,
      findWorstViolatedActiveIneq graph (constraintIndicesOf graph) lambdas
          = ((i : Int), (j : Int)) →
      (i, j) ∈ rowPairs graph (constraintIndicesOf graph) ∧
      rowQualifies graph lambdas (i, j) ∧
      (∀ kl ∈ rowPairs graph (constraintIndicesOf graph),
        rowQualifies graph lambdas kl →
          lamAt lambdas kl ≤ lamAt lambdas (i, j)) ∧
      (∀ kl ∈ rowPairs graph (constraintIndicesOf graph),
        rowQualifies graph lambdas kl →
          lamAt lambdas kl = lamAt lambdas (i, j) →
          i < kl.1 ∨ (i = kl.1 ∧ j ≤ kl.2))) := by
  have heq := findWorst_eq_pairScan graph (constraintIndicesOf graph) lambdas
  have hinv := worstScan_invariant graph lambdas
    (rowPairs graph (constraintIndicesOf graph))
  rcases hinv with ⟨hst, hnone⟩ | ⟨l1, p, l2, hL, hqp, hst, hmax, hstrict⟩
  · constructor
    · constructor
      · intro _
        exact hnone
      · intro _
        rw [heq, hst]
    · intro i j hij
      rw [heq, hst] at hij
      exfalso
      have h1 : (-1 : Int) = (i : Int) := congrArg Prod.fst hij
      omega
  · have hr : findWorstViolatedActiveIneq graph (constraintIndicesOf graph)
        lambdas = ((p.1 : Int), (p.2 : Int)) := by
      rw [heq, hst]
    have hpmem : p ∈ rowPairs graph (constraintIndicesOf graph) := by
      rw [hL]
      exact List.mem_append.mpr (Or.inr (List.mem_cons_self _ _))
    constructor
    · constructor
      · intro h
        rw [hr] at h
        exfalso
        have h1 : (p.1 : Int) = -1 := congrArg Prod.fst h
        omega
      · intro hall
        exact absurd hqp (hall p hpmem)
    · intro i j hij
      rw [hr] at hij
      have hi : p.1 = i := by
        have h1 : (p.1 : Int) = (i : Int) := congrArg Prod.fst hij
        exact_mod_cast h1
      have hj : p.2 = j := by
        have h2 : (p.2 : Int) = (j : Int) := congrArg (fun q : Int × Int => q.2) hij
        exact_mod_cast h2
      have hp : p = (i, j) := by
        rw [← hi, ← hj]
      subst hp
      refine ⟨hpmem, hqp, hmax, ?_⟩
      intro kl hkl hq' hlam
      rw [hL] at hkl
      rcases List.mem_append.mp hkl with h1 | h2
      · exact absurd hlam (ne_of_lt (hstrict kl h1 hq'))
      · rcases List.mem_cons.mp h2 with rfl | h2
        · exact Or.inr ⟨rfl, le_refl _⟩
        · have hpw := rowPairs_pairwise graph (constraintIndicesOf graph)
            (constraintIndices_sorted graph)
          rw [hL] at hpw
          have hcons := (List.pairwise_append.mp hpw).2.1
          have hrel := (List.pairwise_cons.mp hcons).1 kl h2
          rcases hrel with h | ⟨he, hlt⟩
          · exact Or.inl h
          · exact Or.inr ⟨he, le_of_lt hlt⟩

/-- C4 witness: the selection theorem applied to a concrete graph with
one constrained factor holding two inequality rows with equal positive
multipliers; the first row is selected and dominates both rows. -/
theorem findWorst_spec_witness :
    rowQualifies [⟨[0], [[[1], [1]]], [3, 4], [-1, -1]⟩] [(0, [2, 2])] (0, 0) ∧
      ∀ kl ∈ rowPairs [⟨[0], [[[1], [1]]], [3, 4], [-1, -1]⟩]
          (constraintIndicesOf [⟨[0], [[[1], [1]]], [3, 4], [-1, -1]⟩]),
        rowQualifies [⟨[0], [[[1], [1]]], [3, 4], [-1, -1]⟩] [(0, [2, 2])] kl →
          lamAt [(0, [2, 2])] kl ≤ lamAt [(0, [2, 2])] (0, 0) :=
  have h := (findWorst_spec [⟨[0], [[[1], [1]]], [3, 4], [-1, -1]⟩]
    [(0, [2, 2])]).2 0 0 (by decide)
  ⟨h.2.1, h.2.2.1⟩

/-- C8: optimize makes exactly one value copy of the original graph (the
initial working component of the loop state) and every iteration
replaces only the working graph and current-solution components: the
original graph (and the precomputed free-Hessian subgraph read from it)
is unchanged by iterateInPlace, by the whole loop, and hence by optimize. -/
theorem optimize_frame (solve : GaussianFactorGraph → VectorValues) :
    (∀ s : QPState,
      (iterateInPlace solve s).2.orig = s.orig ∧
        (iterateInPlace solve s).2.freeHessians = s.freeHessians) ∧
    (∀ (graph : GaussianFactorGraph) (fhg : List HessianFactor)
        (initials : VectorValues) (fuel : ℕ),
      optimize solve graph fhg initials fuel =
          optimizeLoop solve fuel
            { orig := graph, freeHessians := fhg, working := graph,
              current := initials } ∧
        (optimize solve graph fhg initials fuel).orig = graph ∧
        (optimize solve graph fhg initials fuel).freeHessians = fhg) := by
  refine ⟨iterate_preserves solve, ?_⟩
  intro graph fhg initials fuel
  refine ⟨rfl, ?_, ?_⟩
  · exact (optimizeLoop_preserves solve fuel _).1
  · exact (optimizeLoop_preserves solve fuel _).2

/-- C10: whenever iterateInPlace reports CONVERGED, the state is
returned untouched: the working-set update was the rejected sentinel
call and the current assignment was not replaced by the freshly solved
sub-problem solution. -/
theorem iterate_converged_frame (solve : GaussianFactorGraph → VectorValues)
    (s : QPState) (h : (iterateInPlace solve s).1 = true) :
    (iterateInPlace solve s).2 = s := by
  unfold iterateInPlace at h ⊢
  by_cases hEq : vvEquals (solve s.working) s.current tol = true
  · simp only [hEq, if_true] at h ⊢
    by_cases hupd : (updateWorkingSetInplace s.working
        (findWorstViolatedActiveIneq s.orig (constraintIndicesOf s.orig)
          (solve (buildDualGraph s.working s.freeHessians (solve s.working)
            false))).1
        (findWorstViolatedActiveIneq s.orig (constraintIndicesOf s.orig)
          (solve (buildDualGraph s.working s.freeHessians (solve s.working)
            false))).2 (-1)).1 = true
    · simp [hupd] at h
    · have hupd' := eq_false_of_ne_true hupd
      simp [hupd']
  · simp [hEq] at h

/-- C10 witness: on an empty problem the iteration converges at once and
returns the state unchanged. -/
theorem iterate_converged_frame_witness :
    (iterateInPlace (fun _ => ([] : VectorValues))
        ⟨[], [], [], []⟩).2 = (⟨[], [], [], []⟩ : QPState) :=
  iterate_converged_frame (fun _ => []) ⟨[], [], [], []⟩ (by decide)

/-- C1: one iteration returns CONVERGED exactly when the sub-problem
solution is tolerance-equal to the current assignment and the
worst-violation selection reports the sentinel (no inequality row with a
strictly positive multiplier); in the equal case with a row found it
deactivates that row (scale set to the sentinel -1) and returns
CONTINUE; in the progress case it takes p = xStar - xCurrent, runs the
ratio test, activates the blocking row through the working-set update
(a sentinel result is a no-op), advances the current assignment by
alpha times p, and returns CONTINUE. -/
theorem iterate_cases (solve : GaussianFactorGraph → VectorValues)
    (s : QPState) :
    ((iterateInPlace solve s).1 = true ↔
      (vvEquals (solve s.working) s.current tol = true ∧
        findWorstViolatedActiveIneq s.orig (constraintIndicesOf s.orig)
          (solve (buildDualGraph s.working s.freeHessians (solve s.working)
            false)) = (-1, -1))) ∧
    (∀ f j : ℕ,
      vvEquals (solve s.working) s.current tol = true →
      findWorstViolatedActiveIneq s.orig (constraintIndicesOf s.orig)
          (solve (buildDualGraph s.working s.freeHessians (solve s.working)
            false)) = ((f : Int), (j : Int)) →
      iterateInPlace solve s =
        (false, { s with working :=
          (updateWorkingSetInplace s.working (f : Int) (j : Int) (-1)).2 })) ∧
    (vvEquals (solve s.working) s.current tol = false →
      iterateInPlace solve s =
        (false, { s with
          working := (updateWorkingSetInplace s.working
            (computeStepSize (constraintIndicesOf s.orig) s.working s.current
              (vvSub (solve s.working) s.current)).2.1
            (computeStepSize (constraintIndicesOf s.orig) s.working s.current
              (vvSub (solve s.working) s.current)).2.2 0).2,
          current := vvAdd s.current (vvScale
            (computeStepSize (constraintIndicesOf s.orig) s.working s.current
              (vvSub (solve s.working) s.current)).1
            (vvSub (solve s.working) s.current)) })) := by
  by_cases hEq : vvEquals (solve s.working) s.current tol = true
  · rcases findWorst_sentinel_or_nonneg s.orig (constraintIndicesOf s.orig)
      (solve (buildDualGraph s.working s.freeHessians (solve s.working)
        false)) with hws | hws
    · have hit : iterateInPlace solve s = (true, s) := by
        unfold iterateInPlace
        simp only [hEq, if_true, hws]
        norm_num [updateWorkingSetInplace]
      refine ⟨?_, ?_, ?_⟩
      · rw [hit]
        simp only [true_iff]
        exact ⟨hEq, hws⟩
      · intro f j _ hfw
        rw [hws] at hfw
        exfalso
        have h1 : (-1 : Int) = (f : Int) := congrArg Prod.fst hfw
        omega
      · intro hne
        rw [hEq] at hne
        exact absurd hne (by simp)
    · have hcond : ¬((findWorstViolatedActiveIneq s.orig
          (constraintIndicesOf s.orig)
          (solve (buildDualGraph s.working s.freeHessians (solve s.working)
            false))).1 < 0 ∨
        (findWorstViolatedActiveIneq s.orig (constraintIndicesOf s.orig)
          (solve (buildDualGraph s.working s.freeHessians (solve s.working)
            false))).2 < 0) := by
        push_neg
        exact ⟨hws.1, hws.2⟩
      have hit : iterateInPlace solve s = (false, { s with working :=
          (updateWorkingSetInplace s.working
            (findWorstViolatedActiveIneq s.orig (constraintIndicesOf s.orig)
              (solve (buildDualGraph s.working s.freeHessians
                (solve s.working) false))).1
            (findWorstViolatedActiveIneq s.orig (constraintIndicesOf s.orig)
              (solve (buildDualGraph s.working s.freeHessians
                (solve s.working) false))).2 (-1)).2 }) := by
        have hupd1 : (updateWorkingSetInplace s.working
            (findWorstViolatedActiveIneq s.orig (constraintIndicesOf s.orig)
              (solve (buildDualGraph s.working s.freeHessians
                (solve s.working) false))).1
            (findWorstViolatedActiveIneq s.orig (constraintIndicesOf s.orig)
              (solve (buildDualGraph s.working s.freeHessians
                (solve s.working) false))).2 (-1)).1 = true := by
          simp only [updateWorkingSetInplace, hcond, if_false]
        unfold iterateInPlace
        simp only [hEq, if_true, hupd1]
      refine ⟨?_, ?_, ?_⟩
      · rw [hit]
        simp only [Bool.false_eq_true, false_iff]
        intro hc
        rw [hc.2] at hws
        exact absurd hws.1 (by norm_num)
      · intro f j _ hfw
        rw [hit, hfw]
      · intro hne
        rw [hEq] at hne
        exact absurd hne (by simp)
  · have hEq' := eq_false_of_ne_true hEq
    have hit : iterateInPlace solve s =
        (false, { s with
          working := (updateWorkingSetInplace s.working
            (computeStepSize (constraintIndicesOf s.orig) s.working s.current
              (vvSub (solve s.working) s.current)).2.1
            (computeStepSize (constraintIndicesOf s.orig) s.working s.current
              (vvSub (solve s.working) s.current)).2.2 0).2,
          current := vvAdd s.current (vvScale
            (computeStepSize (constraintIndicesOf s.orig) s.working s.current
              (vvSub (solve s.working) s.current)).1
            (vvSub (solve s.working) s.current)) }) := by
      unfold iterateInPlace
      simp only [hEq', Bool.false_eq_true, if_false]
    refine ⟨?_, ?_, ?_⟩
    · rw [hit]
      simp only [Bool.false_eq_true, false_iff]
      intro hc
      rw [hEq'] at hc
      exact absurd hc.1 (by simp)
    · intro f j hq _
      rw [hEq'] at hq
      exact absurd hq (by simp)
    · intro _
      exact hit

/-- C1 witness: on an empty problem the tolerance check succeeds and the
worst-violation selection reports the sentinel, so the iteration reports
CONVERGED. -/
theorem iterate_cases_witness :
    (iterateInPlace (fun _ => ([] : VectorValues))
      (⟨[], [], [], []⟩ : QPState)).1 = true :=
  (iterate_cases (fun _ => []) ⟨[], [], [], []⟩).1.mpr ⟨by decide, by decide⟩

/-- C6 counterexample: a row factor with one EQUALITY row (sigma 0) and
one further row with sigma 1e-10 is a constrained factor (it contains a
constrained row, so it takes the mixed-reduction branch), and its second
row is FREE by the data model (its scale is strictly positive); yet that
sigma falls under the 1e-9 threshold, so the row receives zero precision
and the factor counts as having no free row, and the mixed branch drops
the whole factor — contradicting the claim that the reduced factor is
included whenever at least one row of the factor is FREE and that FREE
rows keep their original weights. -/
theorem aggregator_tiny_free_row_cex :
    (⟨[0], [[[1], [1]]], [0, 0], [0, 1 / 10000000000]⟩ :
        JacobianFactor).isConstrained = true ∧
      (0 < vGet ([0, 1 / 10000000000] : Vec) 1) ∧
      reduceMixedConstrained
          ⟨[0], [[[1], [1]]], [0, 0], [0, 1 / 10000000000]⟩ = none := by
  refine ⟨?_, ?_, ?_⟩
  · norm_num [JacobianFactor.isConstrained, List.any_cons, List.any_nil,
      decide_eq_true_eq]
  · norm_num [vGet]
  · norm_num [reduceMixedConstrained, hasFreeRow, eps, List.any_cons,
      List.any_nil, decide_eq_true_eq]

/-- C6 (amended): the aggregator includes the reduced factor if and only
if some row has sigma strictly above the 1e-9 threshold (not merely a
positive sigma); in the reduced precision vector every row with sigma at
most the threshold — in particular every EQUALITY and INEQUALITY row,
but also a FREE row with positive sigma within the threshold — receives
zero precision, and every row with sigma above the threshold receives
precision 1/sigma; a factor all of whose rows are at or below the
threshold (for instance all constrained) contributes nothing. -/
theorem aggregator_mixed_spec (jf : JacobianFactor) :
    ((reduceMixedConstrained jf).isSome = true ↔
      ∃ s ∈ jf.sigmas, eps < s) ∧
    (∀ j : ℕ, j < jf.sigmas.length →
      (vGet jf.sigmas j ≤ eps → vGet (newPrecisions jf.sigmas) j = 0) ∧
      (eps < vGet jf.sigmas j →
        vGet (newPrecisions jf.sigmas) j = 1 / vGet jf.sigmas j)) := by
  constructor
  · unfold reduceMixedConstrained
    by_cases h : hasFreeRow jf.sigmas = true
    · simp only [h, if_true, Option.isSome_some, true_iff]
      rcases List.any_eq_true.mp h with ⟨s, hs, hds⟩
      exact ⟨s, hs, of_decide_eq_true hds⟩
    · have h' := eq_false_of_ne_true h
      simp only [h', Bool.false_eq_true, if_false, Option.isSome_none,
        Bool.false_eq_true, false_iff]
      intro ⟨s, hs, hlt⟩
      exact h (List.any_eq_true.mpr ⟨s, hs, decide_eq_true hlt⟩)
  · intro j hj
    have hget : vGet (newPrecisions jf.sigmas) j =
        (if vGet jf.sigmas j ≤ eps then 0 else 1 / vGet jf.sigmas j) := by
      unfold newPrecisions vGet
      rw [List.getD_eq_getElem?_getD, List.getElem?_map,
        List.getElem?_eq_getElem hj]
      simp [List.getD_eq_getElem?_getD, List.getElem?_eq_getElem hj]
    constructor
    · intro hle
      rw [hget, if_pos hle]
    · intro hlt
      rw [hget, if_neg (not_le.mpr hlt)]

/-- C6 witness: the amended theorem applied to a factor with one
equality row, one inequality row and one genuinely free row. -/
theorem aggregator_mixed_spec_witness :
    (reduceMixedConstrained
        ⟨[0], [[[1], [1], [1]]], [0, 0, 0], [0, -1, 2]⟩).isSome = true ∧
      vGet (newPrecisions [0, -1, 2]) 1 = 0 ∧
      vGet (newPrecisions [0, -1, 2]) 2 = 1 / 2 :=
  have h := aggregator_mixed_spec ⟨[0], [[[1], [1], [1]]], [0, 0, 0], [0, -1, 2]⟩
  ⟨h.1.mpr ⟨2, by norm_num, by norm_num [eps]⟩,
   (h.2 1 (by norm_num)).1 (by norm_num [vGet, eps]),
   by
     have h2 := (h.2 2 (by norm_num)).2 (by norm_num [vGet, eps])
     rw [h2]
     norm_num [vGet]⟩

/-- C5: in the dual graph built at x0, the right-hand side stored for a
constrained variable is exactly the gradf vector, and entrywise that
vector equals the unconstrained gradient: the sum, over every
free-Hessian factor touching the variable, of the products of the
information blocks with the assignment minus the linear term, where each
block is read from the stored upper-triangular part and transposed
whenever the variable position comes after the other position. -/
theorem dualRhs_gradient (fhg : List HessianFactor) (x0 : VectorValues)
    (xiKey d : ℕ)
    (hwf : ∀ fIx ∈ factorsOf fhg xiKey, factorWF fhg xiKey d fIx) :
    (∀ (graph : GaussianFactorGraph) (useLS : Bool),
      ((dualFactorsForVar graph fhg x0 useLS xiKey).headD default).b
        = gradf fhg x0 xiKey ((dualXiDim fhg xiKey).getD 0)) ∧
    ∀ r, r < d → vGet (gradf fhg x0 xiKey d) r
      = ((factorsOf fhg xiKey).map (gradContrib fhg x0 xiKey r)).sum := by
  constructor
  · intro graph useLS
    rfl
  · intro r hr
    have h := gradf_outer fhg x0 xiKey d r hr (factorsOf fhg xiKey)
      (vzero d) (length_vzero d) hwf
    unfold gradf
    rw [h.1, vGet_vzero]
    ring

/-- C5 witness: for the concrete factor, the gradient at variable 0 is
G00 * x0 + G01 * x1 - g0 = 2 + 2 - 5 = -1. -/
theorem dualRhs_gradient_witness :
    vGet (gradf [exHessian] exX0 0 1) 0 = -1 := by
  have h := (dualRhs_gradient [exHessian] exX0 0 1 (by decide)).2 0
    (by norm_num)
  rw [h]
  norm_num [factorsOf, gradContrib, hAt, exHessian, exX0, Gblock, dot,
    vGet, vvAt, HessianFactor.find, List.range_succ, List.range_zero,
    List.lookup, List.zipWith,
    show List.indexOf? (0 : ℕ) [0, 1] = some 0 from rfl,
    show ((1 : ℕ) == (0 : ℕ)) = false from rfl,
    show ((0 : ℕ) == (0 : ℕ)) = true from rfl]

/-- C9: the dual builder takes the dimension of the dual equation of a
variable from factor index 0 of the free-Hessian graph (it depends only
on that factor, not on a factor known to touch the variable); when
factor 0 does not reference the variable the lookup fails (the modelled
counterpart of the unguarded past-the-end access), and when it does, the
gradient vector built from that dimension has the length stored there. -/
theorem dualDim_factor_zero (fhg : List HessianFactor) (x0 : VectorValues)
    (xiKey : ℕ) :
    (∀ fhg2 : List HessianFactor, hAt fhg2 0 = hAt fhg 0 →
      dualXiDim fhg2 xiKey = dualXiDim fhg xiKey) ∧
    ((hAt fhg 0).find xiKey = none → dualXiDim fhg xiKey = none) ∧
    (∀ pos d, (hAt fhg 0).find xiKey = some pos →
      (hAt fhg 0).getDim pos = d →
      (∀ fIx ∈ factorsOf fhg xiKey, factorWF fhg xiKey d fIx) →
      (gradf fhg x0 xiKey ((dualXiDim fhg xiKey).getD 0)).length = d) := by
  refine ⟨?_, ?_, ?_⟩
  · intro fhg2 h
    unfold dualXiDim
    rw [h]
  · intro h
    unfold dualXiDim
    rw [h]
    rfl
  · intro pos d hfind hdim hwf
    have hopt : (dualXiDim fhg xiKey).getD 0 = d := by
      unfold dualXiDim
      rw [hfind]
      simpa using hdim
    rw [hopt]
    exact gradf_length fhg x0 xiKey d hwf

/-- C9 witness: for a graph whose factor 0 is the concrete two-variable
factor, the lookup for variable 0 succeeds with dimension 1 and the
gradient has length 1; for a second graph whose factor 1 (but not
factor 0) touches variable 5, the dimension lookup fails although the
variable is touched by a free-Hessian factor. -/
theorem dualDim_factor_zero_witness :
    (gradf [exHessian] exX0 0 ((dualXiDim [exHessian] 0).getD 0)).length = 1 ∧
      dualXiDim [exHessian, ⟨[5], [3], fun _ _ => [], fun _ => []⟩] 5 = none ∧
      factorsOf [exHessian, ⟨[5], [3], fun _ _ => [], fun _ => []⟩] 5 = [1] :=
  ⟨(dualDim_factor_zero [exHessian] exX0 0).2.2 0 1 (by decide) (by decide)
      (by decide),
   (dualDim_factor_zero [exHessian, ⟨[5], [3], fun _ _ => [], fun _ => []⟩]
      exX0 5).2.1 (by decide),
   by decide⟩

end QP
